import Mathlib

/-!
Verification development for `danilarff86/multi-k8s`: the submission gateway
(`src/server/server.go`) and the computation worker (`src/worker/worker.go`).

Conventions of the embedding.
* Go `int` is taken to be 64 bits wide (two's complement); sums are reduced with `wrapInt`.
* `strconv.Atoi` and the decimal rendering go-redis applies to `int` arguments
  (`strconv.AppendInt`) belong to libraries; they are modelled by `Atoi` and `formatInt`.
* Redis and the SQL table are external. Their state is a `World`, each handler is a function
  `World → World × Response`, and every call whose error the source inspects takes its
  outcome from an explicit fault argument. A call that reports an error has no effect.
* Log output (`log.Println`, `log.Printf`) is not part of the model.
-/

namespace MultiK8s

-- Machine integers and the worker's `fib`

/-- Smallest value of a 64-bit Go `int`. -/
def intMin : Int := -(2 ^ 63)

/-- Largest value of a 64-bit Go `int`. -/
def intMax : Int := 2 ^ 63 - 1

/-- Reduction of a mathematical integer to the 64-bit two's complement value Go computes. -/
def wrapInt (x : Int) : Int := (x + 2 ^ 63) % 2 ^ 64 - 2 ^ 63

/-- Embedding of `fib` (worker.go:53-58). The decrements `index-1` and `index-2` are taken
when `index ≥ 2`, where they cannot underflow; the sum is a machine addition. -/
def fib (index : Int) : Int :=
  if index < 2 then 1
  else wrapInt (fib (index - 1) + fib (index - 2))
termination_by index.toNat
decreasing_by all_goals omega

/-- The same recursion with an explicit bound on the call depth: `none` when the bound is
exhausted before the recursion bottoms out. -/
def fibFuel : Nat → Int → Option Int
  | 0, _ => none
  | fuel + 1, index =>
    if index < 2 then some 1
    else
      match fibFuel fuel (index - 1), fibFuel fuel (index - 2) with
      | some a, some b => some (wrapInt (a + b))
      | _, _ => none

/-- Reference definition in the words of the specification:
`fib(0) = 1, fib(1) = 1, fib(n) = fib(n-1) + fib(n-2)` for `n ≥ 2`, over the naturals. -/
def fibSpec : Nat → Nat
  | 0 => 1
  | 1 => 1
  | n + 2 => fibSpec (n + 1) + fibSpec n

-- Decimal parsing and rendering

/-- Value of an ASCII decimal digit. -/
def digitVal (c : Char) : Option Nat :=
  if 48 ≤ c.toNat ∧ c.toNat ≤ 57 then some (c.toNat - 48) else none

/-- Left-to-right accumulation of a digit string; `none` on any non-digit. -/
def parseUint : List Char → Nat → Option Nat
  | [], acc => some acc
  | c :: cs, acc =>
    match digitVal c with
    | some d => parseUint cs (acc * 10 + d)
    | none => none

/-- Optional sign followed by at least one decimal digit. -/
def parseDecimal (cs : List Char) : Option Int :=
  match cs with
  | [] => none
  | c :: ds =>
    if c = '-' then
      if ds = [] then none else (parseUint ds 0).map (fun (m : Nat) => -(m : Int))
    else if c = '+' then
      if ds = [] then none else (parseUint ds 0).map (fun (m : Nat) => (m : Int))
    else (parseUint (c :: ds) 0).map (fun (m : Nat) => (m : Int))

/-- Model of Go's `strconv.Atoi` on a 64-bit platform: an optional `+` or `-`, then one or
more decimal digits (leading zeros allowed), the value lying in the `int` range; anything
else is an error (`none`). -/
def Atoi (s : String) : Option Int :=
  match parseDecimal s.toList with
  | some n => if intMin ≤ n ∧ n ≤ intMax then some n else none
  | none => none

/-- Decimal rendering of an `int` as produced by `strconv.AppendInt(b, n, 10)`, which is how
go-redis encodes an `int` argument of `Publish` and `HSet`. -/
def formatInt (n : Int) : String :=
  if n < 0 then String.mk ('-' :: Nat.toDigits 10 n.natAbs)
  else String.mk (Nat.toDigits 10 n.natAbs)

-- External state and handlers

/-- Sentinel stored by the gateway: `const nothingYet = "Nothing yet!"` (server.go:148). -/
def nothingYet : String := "Nothing yet!"

/-- The constant `http.StatusOK`; also the status of a response begun with `w.Write`. -/
def StatusOK : Nat := 200

/-- The constant `http.StatusBadRequest`. -/
def StatusBadRequest : Nat := 400

/-- The constant `http.StatusInternalServerError`. -/
def StatusInternalServerError : Nat := 500

/-- Commands that reach the external stores. -/
inductive Cmd where
  | hset (field value : String)
  | publish (payload : String)
  | insert (number : Int)
  deriving DecidableEq, Repr

/-- State of the three external collaborators.
`hash` is the Redis hash "values", `channel` holds the payloads published on the Redis
channel "insert" and not yet consumed by the subscribed worker (oldest first), `rows` is the
SQL table `values`, and `history` is a ghost record of every command that took effect. -/
structure World where
  hash : String → Option String
  channel : List String
  rows : List Int
  history : List Cmd

/-- Nothing stored, nothing queued, no rows. -/
def World.empty : World := ⟨fun _ => none, [], [], []⟩

/-- Effect of a successful `HSet(ctx, "values", field, value)`. -/
def World.hset (w : World) (field value : String) : World :=
  { w with
    hash := fun k => if k = field then some value else w.hash k
    history := w.history ++ [Cmd.hset field value] }

/-- Effect of a successful `Publish(ctx, "insert", payload)`. -/
def World.publish (w : World) (payload : String) : World :=
  { w with
    channel := w.channel ++ [payload]
    history := w.history ++ [Cmd.publish payload] }

/-- Effect of a successful `INSERT INTO values(number) VALUES ($1)`. Whether the statement
succeeds (the column is a 32-bit `INT`) is decided by the `exec` fault of the caller. -/
def World.insert (w : World) (number : Int) : World :=
  { w with
    rows := w.rows ++ [number]
    history := w.history ++ [Cmd.insert number] }

/-- The `value` struct of server.go:28. -/
structure value where
  Number : Int
  deriving DecidableEq, Repr

/-- What a handler hands to the response writer: plain text, the JSON encoding of a
`[]value`, or the JSON encoding of the `map[string]string` returned by `HGetAll`. -/
inductive Body where
  | text (s : String)
  | values (vs : List value)
  | snapshot (m : String → Option String)

/-- Status code and body of the HTTP response. -/
structure Response where
  status : Nat
  body : Body

/-- Model of `http.Error(w, msg, code)`. -/
def httpError (msg : String) (code : Nat) : Response :=
  ⟨code, Body.text (msg ++ "\n")⟩

/-- Outcome chosen by the environment for each fallible call of one `setHandler` run:
`true` (or `some err`) means the call returns an error and has no effect. -/
structure SetFaults where
  hset : Bool
  publish : Bool
  exec : Option String
  write : Bool

/-- Every call succeeds. -/
def SetFaults.none : SetFaults := ⟨false, false, Option.none, false⟩

/-- Embedding of `httpService.setHandler` (server.go:123-172).
`decoded` is the result of decoding the JSON body into `indexBody.Val`
(`none` when decoding fails). The placeholder is stored under the raw string `val`;
the published message is the parsed `index`, rendered in decimal by the client. -/
def setHandler (f : SetFaults) (decoded : Option String) (w : World) : World × Response :=
  match decoded with
  | none => (w, httpError "unable to parse body" StatusInternalServerError)
  | some val =>
    match Atoi val with
    | none => (w, httpError ("unable to parse index value: " ++ val) StatusBadRequest)
    | some index =>
      if index > 40 then (w, httpError "index too high" StatusBadRequest)
      else if f.hset then
        (w, httpError ("unable to set value '" ++ nothingYet ++ "' for key: '" ++ val ++ "'")
          StatusInternalServerError)
      else
        let w1 := w.hset val nothingYet
        if f.publish then (w1, httpError "unable to publish message" StatusInternalServerError)
        else
          let w2 := w1.publish (formatInt index)
          match f.exec with
          | some err =>
            (w2, httpError ("unable to save data to DB: " ++ err) StatusInternalServerError)
          | none =>
            let w3 := w2.insert index
            if f.write then
              (w3, httpError "unable to write reponse body" StatusInternalServerError)
            else (w3, ⟨StatusOK, Body.text "\"working\": true"⟩)

/-- The loop `for rows.Next() { rows.Scan(&val); values = append(values, value{val}) }`
(server.go:91-100). `scan i` is the error, if any, that `Scan` reports on the row at
position `i`. -/
def scanRows (scan : Nat → Option String) : List Int → Nat → List value →
    Except String (List value)
  | [], _, values => Except.ok values
  | val :: rest, i, values =>
    match scan i with
    | some err => Except.error err
    | none => scanRows scan rest (i + 1) (values ++ [value.mk val])

/-- Embedding of `httpService.allHandler` (server.go:79-106). The query yields the rows in
the order they were inserted (SQL itself promises no order). `Body.values []` stands for the
encoding of the nil slice. -/
def allHandler (query : Option String) (scan : Nat → Option String) (encode : Option String)
    (w : World) : World × Response :=
  match query with
  | some err =>
    (w, httpError ("unable to retrieve values from db: " ++ err) StatusInternalServerError)
  | none =>
    match scanRows scan w.rows 0 [] with
    | Except.error err =>
      (w, httpError ("unable to parse values: " ++ err) StatusInternalServerError)
    | Except.ok values =>
      match encode with
      | some err => (w, httpError ("unable to encode values: " ++ err) StatusInternalServerError)
      | none => (w, ⟨StatusOK, Body.values values⟩)

/-- Embedding of `httpService.currentHandler` (server.go:108-121). -/
def currentHandler (hgetall encode : Option String) (w : World) : World × Response :=
  match hgetall with
  | some err =>
    (w, httpError ("unable to retrieve values redis: " ++ err) StatusInternalServerError)
  | none =>
    match encode with
    | some err => (w, httpError ("unable to encode values: " ++ err) StatusInternalServerError)
    | none => (w, ⟨StatusOK, Body.snapshot w.hash⟩)

/-- Body of the worker loop for one received message (worker.go:36-49). `hsetFails` tells
whether the `HSet` reports an error, in which case the message is dropped. -/
def workerStep (hsetFails : Bool) (payload : String) (w : World) : World :=
  match Atoi payload with
  | none => w
  | some index =>
    let val := fib index
    if hsetFails then w else w.hset payload (formatInt val)

/-- The worker loop `for msg := range pubsub.Channel()` (worker.go:35-50) run over the
messages currently queued on the channel; `faults` gives, message by message, whether the
worker's `HSet` fails. The loop blocks (returns the world) when nothing is left. -/
def workerLoop : List Bool → World → World
  | [], w => w
  | hsetFails :: faults, w =>
    match w.channel with
    | [] => w
    | payload :: rest => workerLoop faults (workerStep hsetFails payload { w with channel := rest })

/-- A sequence of submissions handled one after the other. -/
def submitAll : List (SetFaults × Option String) → World → World × List Response
  | [], w => (w, [])
  | (f, decoded) :: reqs, w =>
    let r := setHandler f decoded w
    let rs := submitAll reqs r.1
    (rs.1, r.2 :: rs.2)

/-- Indices carried by a list of submissions (requests whose body or index does not parse
carry none). -/
def submittedIndices (reqs : List (SetFaults × Option String)) : List Int :=
  reqs.filterMap (fun r => r.2.bind Atoi)

-- Arithmetic of the machine integers and of the decimal format

theorem wrapInt_of_inRange (x : Int) (h1 : intMin ≤ x) (h2 : x ≤ intMax) : wrapInt x = x := by
  unfold wrapInt
  unfold intMin intMax at *
  rw [Int.emod_eq_of_lt (by omega) (by omega)]
  omega

theorem wrapInt_add_wrapInt (a b : Int) : wrapInt (wrapInt a + wrapInt b) = wrapInt (a + b) := by
  unfold wrapInt
  omega

theorem fib_lt_two (i : Int) (h : i < 2) : fib i = 1 := by
  rw [fib]; simp [h]

theorem fib_ge_two (i : Int) (h : 2 ≤ i) :
    fib i = wrapInt (fib (i - 1) + fib (i - 2)) := by
  rw [fib]; simp [not_lt.mpr h]

theorem fib_natCast (n : Nat) : fib (n : Int) = wrapInt (fibSpec n) ∧
    fib ((n : Int) + 1) = wrapInt (fibSpec (n + 1)) := by
  induction n with
  | zero =>
    constructor
    · rw [fib_lt_two _ (by norm_num)]; decide
    · rw [fib_lt_two _ (by norm_num)]; decide
  | succ k ih =>
    refine ⟨by exact_mod_cast ih.2, ?_⟩
    rw [fib_ge_two _ (by omega)]
    have e1 : ((k + 1 : Nat) : Int) + 1 - 1 = (k : Int) + 1 := by push_cast; ring
    have e2 : ((k + 1 : Nat) : Int) + 1 - 2 = (k : Int) := by push_cast; ring
    rw [e1, e2, ih.1, ih.2, wrapInt_add_wrapInt]
    congr 1


theorem fibSpec_pos (n : Nat) : 1 ≤ fibSpec n := by
  induction n using Nat.strong_induction_on with
  | _ n ih =>
    match n with
    | 0 => decide
    | 1 => decide
    | k + 2 =>
      have := ih (k + 1) (by omega)
      show 1 ≤ fibSpec (k + 1) + fibSpec k
      omega

theorem fibSpec_le_succ (n : Nat) : fibSpec n ≤ fibSpec (n + 1) := by
  match n with
  | 0 => decide
  | k + 1 =>
    show fibSpec (k + 1) ≤ fibSpec (k + 1) + fibSpec k
    omega

theorem fibSpec_mono : Monotone fibSpec := monotone_nat_of_le_succ fibSpec_le_succ

theorem fib_eq_fibSpec (n : Nat) (h : n ≤ 91) : fib (n : Int) = (fibSpec n : Int) := by
  rw [(fib_natCast n).1]
  have h1 : fibSpec n ≤ fibSpec 91 := fibSpec_mono h
  have h2 : fibSpec 91 = 7540113804746346429 := by rfl
  apply wrapInt_of_inRange
  · unfold intMin; omega
  · unfold intMax; omega

theorem digitVal_digitChar (d : Nat) (h : d < 10) : digitVal (Nat.digitChar d) = some d := by
  interval_cases d <;> decide

theorem parseUint_append (xs ys : List Char) (acc : Nat) :
    parseUint (xs ++ ys) acc = (parseUint xs acc).bind (parseUint ys) := by
  induction xs generalizing acc with
  | nil => simp [parseUint]
  | cons c cs ih =>
    simp only [List.cons_append, parseUint]
    cases digitVal c with
    | none => simp
    | some d => simp [ih]

theorem parseUint_toDigitsCore (fuel n : Nat) (ds : List Char) (h : n < fuel) :
    ∃ L : List Char, Nat.toDigitsCore 10 fuel n ds = L ++ ds ∧ L ≠ [] ∧
      ∀ acc, parseUint L acc = some (acc * 10 ^ L.length + n) := by
  induction fuel generalizing n ds with
  | zero => omega
  | succ f ih =>
    simp only [Nat.toDigitsCore]
    split
    · rename_i h0
      refine ⟨[Nat.digitChar (n % 10)], rfl, by simp, ?_⟩
      intro acc
      have hn : n < 10 := by omega
      simp [parseUint, Nat.mod_eq_of_lt hn, digitVal_digitChar n hn]
    · rename_i h0
      obtain ⟨L, hL, _, hp⟩ := ih (n / 10) (Nat.digitChar (n % 10) :: ds) (by omega)
      refine ⟨L ++ [Nat.digitChar (n % 10)], by simp [hL], by simp, ?_⟩
      intro acc
      rw [parseUint_append, hp]
      simp [parseUint, digitVal_digitChar _ (Nat.mod_lt n (by norm_num)), pow_succ]
      have := Nat.div_add_mod n 10
      ring_nf
      omega


theorem parseUint_toDigits (n : Nat) :
    Nat.toDigits 10 n ≠ [] ∧ parseUint (Nat.toDigits 10 n) 0 = some n := by
  obtain ⟨L, hL, hne, hp⟩ := parseUint_toDigitsCore (n + 1) n [] (Nat.lt_succ_self n)
  have e : Nat.toDigits 10 n = L := by simpa [Nat.toDigits] using hL
  rw [e]
  exact ⟨hne, by simpa using hp 0⟩

theorem parseUint_head_digit (c : Char) (cs : List Char) (acc m : Nat)
    (h : parseUint (c :: cs) acc = some m) : digitVal c ≠ none := by
  intro hc
  simp [parseUint, hc] at h

theorem parseDecimal_formatInt (n : Int) : parseDecimal (formatInt n).toList = some n := by
  obtain ⟨hne, hp⟩ := parseUint_toDigits n.natAbs
  unfold formatInt
  split
  · rename_i hneg
    simp only [parseDecimal, String.toList, if_true, if_neg hne, hp, Option.map_some']
    congr 1
    omega
  · rename_i hpos
    cases hD : Nat.toDigits 10 n.natAbs with
    | nil => exact absurd hD hne
    | cons c ds =>
      rw [hD] at hp
      have hc := parseUint_head_digit c ds 0 _ hp
      have h1 : c ≠ '-' := by rintro rfl; exact hc (by decide)
      have h2 : c ≠ '+' := by rintro rfl; exact hc (by decide)
      simp only [parseDecimal, String.toList, hD, if_neg h1, if_neg h2, hp, Option.map_some']
      congr 1
      omega

theorem Atoi_formatInt (n : Int) (h1 : intMin ≤ n) (h2 : n ≤ intMax) :
    Atoi (formatInt n) = some n := by
  unfold Atoi
  rw [parseDecimal_formatInt]
  simp [h1, h2]

theorem Atoi_inRange (s : String) (n : Int) (h : Atoi s = some n) : intMin ≤ n ∧ n ≤ intMax := by
  unfold Atoi at h
  split at h
  · split at h
    · rename_i hr; cases h; exact hr
    · cases h
  · cases h

-- Gateway: unfolding lemmas

theorem setHandler_parse_error (f : SetFaults) (val : String) (w : World)
    (h : Atoi val = none) :
    setHandler f (some val) w =
      (w, httpError ("unable to parse index value: " ++ val) StatusBadRequest) := by
  simp [setHandler, h]

theorem setHandler_too_high (f : SetFaults) (val : String) (w : World) (index : Int)
    (h : Atoi val = some index) (hi : index > 40) :
    setHandler f (some val) w = (w, httpError "index too high" StatusBadRequest) := by
  simp [setHandler, h, hi]

theorem setHandler_valid (f : SetFaults) (val : String) (w : World) (index : Int)
    (h : Atoi val = some index) (hi : index ≤ 40) :
    setHandler f (some val) w =
      if f.hset then
        (w, httpError ("unable to set value '" ++ nothingYet ++ "' for key: '" ++ val ++ "'")
          StatusInternalServerError)
      else if f.publish then
        (w.hset val nothingYet, httpError "unable to publish message" StatusInternalServerError)
      else
        match f.exec with
        | some err =>
          ((w.hset val nothingYet).publish (formatInt index),
            httpError ("unable to save data to DB: " ++ err) StatusInternalServerError)
        | none =>
          if f.write then
            (((w.hset val nothingYet).publish (formatInt index)).insert index,
              httpError "unable to write reponse body" StatusInternalServerError)
          else
            (((w.hset val nothingYet).publish (formatInt index)).insert index,
              ⟨StatusOK, Body.text "\"working\": true"⟩) := by
  simp only [setHandler, h, not_lt.mpr hi, gt_iff_lt, if_false]

/-- A 200 answer means the request was valid and no call failed. -/
theorem setHandler_ok_inv (f : SetFaults) (decoded : Option String) (w : World)
    (h : (setHandler f decoded w).2.status = StatusOK) :
    ∃ val index, decoded = some val ∧ Atoi val = some index ∧ index ≤ 40 ∧
      f.hset = false ∧ f.publish = false ∧ f.exec = none ∧ f.write = false ∧
      (setHandler f decoded w).1 =
        ((w.hset val nothingYet).publish (formatInt index)).insert index := by
  cases decoded with
  | none => simp [setHandler, httpError, StatusOK, StatusInternalServerError] at h
  | some val =>
    cases hp : Atoi val with
    | none =>
      rw [setHandler_parse_error f val w hp] at h
      simp [httpError, StatusOK, StatusBadRequest] at h
    | some index =>
      by_cases hi : index > 40
      · rw [setHandler_too_high f val w index hp hi] at h
        simp [httpError, StatusOK, StatusBadRequest] at h
      · have hi' : index ≤ 40 := not_lt.mp hi
        rw [setHandler_valid f val w index hp hi'] at h ⊢
        obtain ⟨fh, fp, fe, fw⟩ := f
        cases fh <;> cases fp <;> cases fe <;> cases fw <;>
          simp [httpError, StatusOK, StatusInternalServerError] at h ⊢
        exact ⟨index, hp, hi', rfl⟩

-- The worker's `fib`

theorem fib_of_le_91 (n : Int) (h : n ≤ 91) : fib n = (fibSpec n.toNat : Int) := by
  by_cases h2 : n < 2
  · rw [fib_lt_two n h2]
    have : n.toNat = 0 ∨ n.toNat = 1 := by omega
    rcases this with e | e <;> rw [e] <;> rfl
  · have e : n = (n.toNat : Int) := by omega
    have h3 := fib_eq_fibSpec n.toNat (by omega)
    rw [← e] at h3
    exact h3

theorem fibSpec_add_two (k : Nat) : fibSpec (k + 2) = fibSpec (k + 1) + fibSpec k := rfl

theorem fib_rec_of_le_91 (n : Int) (h2 : 2 ≤ n) (h : n ≤ 91) :
    fib n = fib (n - 1) + fib (n - 2) := by
  rw [fib_of_le_91 n h, fib_of_le_91 (n - 1) (by omega), fib_of_le_91 (n - 2) (by omega)]
  obtain ⟨k, hk⟩ : ∃ k : Nat, n = (k : Int) + 2 := ⟨(n - 2).toNat, by omega⟩
  subst hk
  have e0 : ((k : Int) + 2).toNat = k + 2 := by omega
  have e1 : ((k : Int) + 2 - 1).toNat = k + 1 := by omega
  have e2 : ((k : Int) + 2 - 2).toNat = k := by omega
  rw [e0, e1, e2, fibSpec_add_two]
  push_cast
  rfl

theorem fib_mono_of_le_91 (m n : Int) (hmn : m ≤ n) (h : n ≤ 91) : fib m ≤ fib n := by
  rw [fib_of_le_91 m (by omega), fib_of_le_91 n h]
  exact_mod_cast fibSpec_mono (Int.toNat_le_toNat hmn)

theorem fibFuel_eq_fib (fuel : Nat) (n : Int) (h1 : 1 ≤ fuel) (hn : n ≤ fuel) :
    fibFuel fuel n = some (fib n) := by
  induction fuel generalizing n with
  | zero => omega
  | succ k ih =>
    by_cases h2 : n < 2
    · simp [fibFuel, h2, fib_lt_two n h2]
    · have hk : 1 ≤ k := by push_cast at hn; omega
      have ha := ih (n - 1) hk (by push_cast at hn; omega)
      have hb := ih (n - 2) hk (by push_cast at hn; omega)
      simp [fibFuel, h2, ha, hb, fib_ge_two n (not_lt.mp h2)]

/-- C1 (counterexample). At index 92 the 64-bit sum wraps: the value returned by the worker's
`fib` is negative and differs both from `fib 91 + fib 90` and from the reference value. -/
theorem fib_92_wraps :
    (2 : Int) ≤ 92 ∧ fib 92 = -6246583658587674878 ∧
      fib (92 - 1) + fib (92 - 2) = 12200160415121876738 ∧
      fib 92 ≠ fib (92 - 1) + fib (92 - 2) ∧
      fib 92 ≠ (fibSpec 92 : Int) := by
  have h92 : fib 92 = -6246583658587674878 := by
    have h := (fib_natCast 92).1
    rw [show ((92 : Nat) : Int) = 92 from rfl] at h
    rw [h]
    decide
  have h91 : fib (92 - 1) = 7540113804746346429 := by
    rw [fib_of_le_91 _ (by norm_num)]
    rfl
  have h90 : fib (92 - 2) = 4660046610375530309 := by
    rw [fib_of_le_91 _ (by norm_num)]
    rfl
  have hs : fibSpec 92 = 12200160415121876738 := by rfl
  refine ⟨by norm_num, h92, ?_, ?_, ?_⟩
  · rw [h91, h90]; norm_num
  · rw [h92, h91, h90]; norm_num
  · rw [h92, hs]; norm_num

/-- C1 (amended). The worker's `fib` returns 1 at 0 and at 1; for every index `n` with
`2 ≤ n ≤ 91` it satisfies `fib n = fib (n-1) + fib (n-2)` over the integers; on every
`n ≤ 91` it equals the reference definition `fibSpec`; and for every `n ≥ 2` whatsoever the
recurrence holds with the sum taken in 64-bit two's complement. -/
theorem fib_refines_fibSpec (n : Int) :
    fib 0 = 1 ∧ fib 1 = 1 ∧
      (2 ≤ n → n ≤ 91 → fib n = fib (n - 1) + fib (n - 2)) ∧
      (n ≤ 91 → fib n = (fibSpec n.toNat : Int)) ∧
      (2 ≤ n → fib n = wrapInt (fib (n - 1) + fib (n - 2))) :=
  ⟨fib_lt_two 0 (by norm_num), fib_lt_two 1 (by norm_num), fib_rec_of_le_91 n,
    fib_of_le_91 n, fib_ge_two n⟩

theorem fib_refines_fibSpec_witness :
    fib 5 = fib (5 - 1) + fib (5 - 2) ∧ fib 5 = (fibSpec (5 : Int).toNat : Int) :=
  ⟨(fib_refines_fibSpec 5).2.2.1 (by norm_num) (by norm_num),
    (fib_refines_fibSpec 5).2.2.2.1 (by norm_num)⟩

/-- C10. On every index the gateway lets through (`n ≤ 40`, negatives included) the worker's
`fib` is 1 below 2, is non-decreasing, lies between 1 and `fib 40 = 165580141 < 2^31`, its
additions do not wrap, its value is the mathematical one, and the recursion returns within
call depth 40 (`fib` itself is total, by well-founded recursion on `index.toNat`). -/
theorem fib_bounded_on_accepted (n : Int) (h : n ≤ 40) :
    (n < 2 → fib n = 1) ∧
      (∀ m : Int, m ≤ n → fib m ≤ fib n) ∧
      1 ≤ fib n ∧ fib n ≤ fib 40 ∧ fib 40 = 165580141 ∧ (165580141 : Int) < 2 ^ 31 ∧
      (2 ≤ n → fib (n - 1) + fib (n - 2) < 2 ^ 31 ∧
        wrapInt (fib (n - 1) + fib (n - 2)) = fib (n - 1) + fib (n - 2) ∧
        fib n = fib (n - 1) + fib (n - 2)) ∧
      fib n = (fibSpec n.toNat : Int) ∧
      fibFuel 40 n = some (fib n) := by
  have h40 : fib 40 = 165580141 := by
    rw [fib_of_le_91 40 (by norm_num)]
    rfl
  have hle : fib n ≤ fib 40 := fib_mono_of_le_91 n 40 h (by norm_num)
  have hpos : 1 ≤ fib n := by
    rw [fib_of_le_91 n (by omega)]
    exact_mod_cast fibSpec_pos _
  refine ⟨fib_lt_two n, fun m hm => fib_mono_of_le_91 m n hm (by omega), hpos, hle, h40,
    by norm_num, ?_, fib_of_le_91 n (by omega), fibFuel_eq_fib 40 n (by norm_num) (by exact_mod_cast h)⟩
  intro h2
  have hrec := fib_rec_of_le_91 n h2 (by omega)
  have hw := fib_ge_two n h2
  refine ⟨?_, ?_, hrec⟩
  · rw [← hrec]
    calc fib n ≤ fib 40 := hle
      _ < 2 ^ 31 := by rw [h40]; norm_num
  · rw [← hw, hrec]

theorem fib_bounded_on_accepted_witness :
    fib (-3) = 1 ∧ fib 40 = 165580141 :=
  ⟨(fib_bounded_on_accepted (-3) (by norm_num)).1 (by norm_num),
    (fib_bounded_on_accepted 40 (by norm_num)).2.2.2.2.1⟩

-- Submission gateway

/-- C2. A submission whose index string is not an integer, or is an integer above 40, is
answered with status 400 and leaves the hash, the channel and the table exactly as they were:
no command is issued. -/
theorem setHandler_rejects (f : SetFaults) (val : String) (w : World)
    (h : Atoi val = none ∨ ∃ n, Atoi val = some n ∧ n > 40) :
    (setHandler f (some val) w).2.status = StatusBadRequest ∧
      (setHandler f (some val) w).1 = w ∧
      (setHandler f (some val) w).1.history = w.history := by
  rcases h with h | ⟨n, hn, hgt⟩
  · rw [setHandler_parse_error f val w h]
    exact ⟨rfl, rfl, rfl⟩
  · rw [setHandler_too_high f val w n hn hgt]
    exact ⟨rfl, rfl, rfl⟩

theorem setHandler_rejects_witness :
    ((setHandler SetFaults.none (some "abc") World.empty).2.status = StatusBadRequest ∧
      (setHandler SetFaults.none (some "abc") World.empty).1 = World.empty ∧
      (setHandler SetFaults.none (some "abc") World.empty).1.history = World.empty.history) ∧
    ((setHandler SetFaults.none (some "41") World.empty).2.status = StatusBadRequest ∧
      (setHandler SetFaults.none (some "41") World.empty).1 = World.empty ∧
      (setHandler SetFaults.none (some "41") World.empty).1.history = World.empty.history) :=
  ⟨setHandler_rejects SetFaults.none "abc" World.empty (Or.inl (by decide)),
    setHandler_rejects SetFaults.none "41" World.empty
      (Or.inr ⟨41, by decide, by decide⟩)⟩

/-- C3 (counterexample). The index string "-1" parses to -1, which is not `≥ 0`, yet the
gateway accepts it: it answers 200 after writing the placeholder, publishing and logging. -/
theorem setHandler_accepts_negative :
    Atoi "-1" = some (-1) ∧ ¬ (0 ≤ (-1 : Int)) ∧
      (setHandler SetFaults.none (some "-1") World.empty).2.status = StatusOK ∧
      (setHandler SetFaults.none (some "-1") World.empty).1.history =
        [Cmd.hset "-1" nothingYet, Cmd.publish "-1", Cmd.insert (-1)] ∧
      (setHandler SetFaults.none (some "-1") World.empty).1.rows = [-1] := by
  refine ⟨by decide, by decide, by decide, by decide, by decide⟩

/-- C3 (amended). Whenever `setHandler` performs any effect (or answers 200), the index string
parses to an integer `n` of the machine range with `n ≤ 40`; no lower bound is enforced. -/
theorem setHandler_accepts_only_le_40 (f : SetFaults) (val : String) (w : World)
    (h : (setHandler f (some val) w).1.history ≠ w.history ∨
      (setHandler f (some val) w).2.status = StatusOK) :
    ∃ n, Atoi val = some n ∧ intMin ≤ n ∧ n ≤ 40 := by
  cases hp : Atoi val with
  | none =>
    rw [setHandler_parse_error f val w hp] at h
    rcases h with h | h
    · exact absurd rfl h
    · simp [httpError, StatusOK, StatusBadRequest] at h
  | some n =>
    by_cases hi : n > 40
    · rw [setHandler_too_high f val w n hp hi] at h
      rcases h with h | h
      · exact absurd rfl h
      · simp [httpError, StatusOK, StatusBadRequest] at h
    · exact ⟨n, rfl, (Atoi_inRange val n hp).1, not_lt.mp hi⟩

theorem setHandler_accepts_only_le_40_witness :
    ∃ n, Atoi "7" = some n ∧ intMin ≤ n ∧ n ≤ 40 :=
  setHandler_accepts_only_le_40 SetFaults.none "7" World.empty (Or.inr (by decide))

/-- C4. For a valid request the gateway issues HSet, then Publish, then INSERT. A failing step
answers 500 and stops: a failed HSet leaves the world untouched, a failed Publish leaves only
the placeholder, a failed INSERT leaves the placeholder and the published message but no row.
When all three succeed the history grows by exactly these three commands in this order, and
status 200 is returned only in that case. -/
theorem setHandler_steps (f : SetFaults) (val : String) (w : World) (index : Int)
    (hp : Atoi val = some index) (hi : index ≤ 40) :
    (f.hset = true →
      (setHandler f (some val) w).1 = w ∧
      (setHandler f (some val) w).2.status = StatusInternalServerError) ∧
    (f.hset = false → f.publish = true →
      (setHandler f (some val) w).1 = w.hset val nothingYet ∧
      (setHandler f (some val) w).1.history = w.history ++ [Cmd.hset val nothingYet] ∧
      (setHandler f (some val) w).1.hash val = some nothingYet ∧
      (setHandler f (some val) w).1.channel = w.channel ∧
      (setHandler f (some val) w).1.rows = w.rows ∧
      (setHandler f (some val) w).2.status = StatusInternalServerError) ∧
    (f.hset = false → f.publish = false → f.exec ≠ none →
      (setHandler f (some val) w).1 = (w.hset val nothingYet).publish (formatInt index) ∧
      (setHandler f (some val) w).1.history =
        w.history ++ [Cmd.hset val nothingYet, Cmd.publish (formatInt index)] ∧
      (setHandler f (some val) w).1.hash val = some nothingYet ∧
      (setHandler f (some val) w).1.channel = w.channel ++ [formatInt index] ∧
      (setHandler f (some val) w).1.rows = w.rows ∧
      (setHandler f (some val) w).2.status = StatusInternalServerError) ∧
    (f.hset = false → f.publish = false → f.exec = none →
      (setHandler f (some val) w).1 =
        ((w.hset val nothingYet).publish (formatInt index)).insert index ∧
      (setHandler f (some val) w).1.history =
        w.history ++
          [Cmd.hset val nothingYet, Cmd.publish (formatInt index), Cmd.insert index] ∧
      (setHandler f (some val) w).1.hash val = some nothingYet ∧
      (setHandler f (some val) w).1.channel = w.channel ++ [formatInt index] ∧
      (setHandler f (some val) w).1.rows = w.rows ++ [index] ∧
      (setHandler f (some val) w).2.status =
        if f.write then StatusInternalServerError else StatusOK) ∧
    ((setHandler f (some val) w).2.status = StatusOK →
      f.hset = false ∧ f.publish = false ∧ f.exec = none ∧ f.write = false) := by
  rw [setHandler_valid f val w index hp hi]
  obtain ⟨fh, fp, fe, fw⟩ := f
  cases fh <;> cases fp <;> cases fe <;> cases fw <;>
    simp [httpError, StatusOK, StatusInternalServerError, World.hset, World.publish,
      World.insert]

theorem setHandler_steps_witness :
    (setHandler ⟨false, true, none, false⟩ (some "7") World.empty).1.history =
      World.empty.history ++ [Cmd.hset "7" nothingYet] ∧
    (setHandler ⟨false, true, none, false⟩ (some "7") World.empty).2.status =
      StatusInternalServerError :=
  have h := (setHandler_steps ⟨false, true, none, false⟩ "7" World.empty 7
    (by decide) (by decide)).2.1 rfl rfl
  ⟨h.2.1, h.2.2.2.2.2⟩

-- Computation worker

theorem workerStep_of_parse (b : Bool) (payload : String) (w : World) (n : Int)
    (h : Atoi payload = some n) :
    workerStep b payload w = if b then w else w.hset payload (formatInt (fib n)) := by
  simp [workerStep, h]

theorem workerStep_channel (b : Bool) (payload : String) (w : World) :
    (workerStep b payload w).channel = w.channel := by
  unfold workerStep
  cases Atoi payload with
  | none => rfl
  | some n => cases b <;> rfl

theorem workerStep_rows (b : Bool) (payload : String) (w : World) :
    (workerStep b payload w).rows = w.rows := by
  unfold workerStep
  cases Atoi payload with
  | none => rfl
  | some n => cases b <;> rfl

theorem workerLoop_cons (b : Bool) (faults : List Bool) (payload : String)
    (rest : List String) (w : World) (h : w.channel = payload :: rest) :
    workerLoop (b :: faults) w =
      workerLoop faults (workerStep b payload { w with channel := rest }) := by
  simp [workerLoop, h]

/-- C9. A payload that is not an integer is dropped: the world is unchanged and the loop goes
on with the next queued message. A payload that parses to `n` changes nothing but the hash
entry under the payload itself, which becomes the decimal rendering of `fib n` once the
`HSet` succeeds (a failing `HSet` is logged and the store keeps its contents). -/
theorem workerStep_spec (b : Bool) (payload : String) (w : World) :
    (Atoi payload = none →
      workerStep b payload w = w ∧
      ∀ (faults : List Bool) (rest : List String), w.channel = payload :: rest →
        workerLoop (b :: faults) w = workerLoop faults { w with channel := rest }) ∧
    (∀ n, Atoi payload = some n →
      (∀ k, k ≠ payload → (workerStep b payload w).hash k = w.hash k) ∧
      (b = false → (workerStep b payload w).hash payload = some (formatInt (fib n))) ∧
      (b = true → workerStep b payload w = w) ∧
      (workerStep b payload w).channel = w.channel ∧
      (workerStep b payload w).rows = w.rows) := by
  constructor
  · intro h
    have e : ∀ v : World, workerStep b payload v = v := by
      intro v; simp [workerStep, h]
    refine ⟨e w, ?_⟩
    intro faults rest hc
    rw [workerLoop_cons b faults payload rest w hc, e]
  · intro n h
    rw [workerStep_of_parse b payload w n h]
    cases b
    · refine ⟨?_, ?_, ?_, rfl, rfl⟩
      · intro k hk; simp [World.hset, hk]
      · intro _; simp [World.hset]
      · intro hb; cases hb
    · simp

theorem workerStep_spec_witness :
    workerStep false "abc" World.empty = World.empty ∧
      (workerStep false "5" World.empty).hash "5" = some (formatInt (fib 5)) :=
  ⟨((workerStep_spec false "abc" World.empty).1 (by decide)).1,
    ((workerStep_spec false "5" World.empty).2 5 (by decide)).2.1 rfl⟩

theorem workerLoop_last (key : String) (n : Int) (hk : Atoi key = some n)
    (faults : List Bool) (ch : List String) (w : World)
    (hlen : faults.length = ch.length) (hc : w.channel = ch ++ [key]) :
    (workerLoop (faults ++ [false]) w).hash key = some (formatInt (fib n)) := by
  induction faults generalizing ch w with
  | nil =>
    have hch : ch = [] := List.length_eq_zero.mp hlen.symm
    subst hch
    rw [List.nil_append, workerLoop_cons false [] key [] w (by simpa using hc)]
    simp [workerLoop, workerStep_of_parse _ _ _ n hk, World.hset]
  | cons b bs ih =>
    cases ch with
    | nil => simp at hlen
    | cons p ps =>
      rw [List.cons_append, workerLoop_cons b (bs ++ [false]) p (ps ++ [key]) w (by simpa using hc)]
      apply ih ps
      · simpa using hlen
      · rw [workerStep_channel]

-- End to end

/-- C5. For `0 ≤ n ≤ 40`, from any world: after a successful submission of the decimal string
of `n`, once the worker has worked through the queued messages up to and including the one
this submission published (its `HSet` for that message succeeding), the hash entry under the
decimal string of `n` holds the decimal rendering of the reference value `fibSpec n`. -/
theorem submit_then_worker (n : Int) (h0 : 0 ≤ n) (h40 : n ≤ 40) (f : SetFaults) (w : World)
    (faults : List Bool) (hlen : faults.length = w.channel.length)
    (hok : (setHandler f (some (formatInt n)) w).2.status = StatusOK) :
    (setHandler f (some (formatInt n)) w).1.channel = w.channel ++ [formatInt n] ∧
    (workerLoop (faults ++ [false]) (setHandler f (some (formatInt n)) w).1).hash (formatInt n)
      = some (formatInt (fibSpec n.toNat)) := by
  have hin : intMin ≤ n ∧ n ≤ intMax := by unfold intMin intMax; constructor <;> omega
  have hk : Atoi (formatInt n) = some n := Atoi_formatInt n hin.1 hin.2
  obtain ⟨val, index, hv, hpi, -, -, -, -, -, hw⟩ := setHandler_ok_inv f _ w hok
  cases hv
  rw [hk] at hpi
  cases hpi
  have hc : (setHandler f (some (formatInt n)) w).1.channel = w.channel ++ [formatInt n] := by
    rw [hw]; rfl
  refine ⟨hc, ?_⟩
  rw [workerLoop_last (formatInt n) n hk faults w.channel _ hlen hc, fib_of_le_91 n (by omega)]

theorem submit_then_worker_witness :
    (setHandler SetFaults.none (some (formatInt 5)) World.empty).1.channel =
      World.empty.channel ++ [formatInt 5] ∧
    (workerLoop ([] ++ [false])
      (setHandler SetFaults.none (some (formatInt 5)) World.empty).1).hash (formatInt 5)
      = some (formatInt (fibSpec (5 : Int).toNat)) :=
  submit_then_worker 5 (by decide) (by decide) SetFaults.none World.empty [] rfl (by decide)

/-- C6 (failing input). The index string "05" is accepted (it parses to 5). The gateway
writes the placeholder under "05" but publishes "5"; the worker then stores `fib 5 = 8`
under "5", and the placeholder under "05" is never overwritten. -/
theorem noncanonical_index_key_mismatch :
    Atoi "05" = some 5 ∧
      (setHandler SetFaults.none (some "05") World.empty).2.status = StatusOK ∧
      (setHandler SetFaults.none (some "05") World.empty).1.hash "05" = some nothingYet ∧
      (setHandler SetFaults.none (some "05") World.empty).1.channel = ["5"] ∧
      (workerLoop [false] (setHandler SetFaults.none (some "05") World.empty).1).hash "5"
        = some "8" ∧
      (workerLoop [false] (setHandler SetFaults.none (some "05") World.empty).1).hash "05"
        = some nothingYet := by
  have hc : (setHandler SetFaults.none (some "05") World.empty).1.channel = ["5"] := by decide
  have h5 : Atoi "5" = some 5 := by decide
  have hf : fib 5 = 8 := by rw [fib_of_le_91 5 (by norm_num)]; rfl
  refine ⟨by decide, by decide, by decide, hc, ?_, ?_⟩
  · rw [workerLoop_cons false [] "5" [] _ hc]
    simp only [workerLoop]
    rw [workerStep_of_parse false "5" _ 5 h5, hf]
    decide
  · rw [workerLoop_cons false [] "5" [] _ hc]
    simp only [workerLoop]
    rw [workerStep_of_parse false "5" _ 5 h5, hf]
    decide

-- Query surface

theorem formatInt_ne_nothingYet (r : Int) : formatInt r ≠ nothingYet := by
  intro h
  have h1 := parseDecimal_formatInt r
  have hn : parseDecimal nothingYet.toList = none := by decide
  rw [h, hn] at h1
  cases h1

/-- C7. After a successful submission of the index string `val`, a snapshot read taken before
the worker runs maps `val` to "Nothing yet!", whatever `val` held before; this is never the
decimal rendering of a result; and every other key reads as it did before the submission. -/
theorem snapshot_after_submit (f : SetFaults) (val : String) (w : World)
    (hok : (setHandler f (some val) w).2.status = StatusOK) :
    ∃ m : String → Option String,
      (currentHandler none none (setHandler f (some val) w).1).2.status = StatusOK ∧
      (currentHandler none none (setHandler f (some val) w).1).2.body = Body.snapshot m ∧
      m val = some nothingYet ∧
      (∀ r : Int, m val ≠ some (formatInt r)) ∧
      (∀ k, k ≠ val → m k = w.hash k) := by
  obtain ⟨v, index, hv, -, -, -, -, -, -, hw⟩ := setHandler_ok_inv f _ w hok
  cases hv
  refine ⟨(setHandler f (some val) w).1.hash, rfl, rfl, ?_, ?_, ?_⟩
  · rw [hw]; simp [World.hset, World.publish, World.insert]
  · intro r
    rw [hw]
    simp only [World.hset, World.publish, World.insert, if_true]
    intro h
    exact formatInt_ne_nothingYet r (Option.some.inj h).symm
  · intro k hk
    rw [hw]; simp [World.hset, World.publish, World.insert, hk]

theorem snapshot_after_submit_witness :
    ∃ m : String → Option String,
      (currentHandler none none
        (setHandler SetFaults.none (some "5") (World.empty.hset "5" "8")).1).2.status
          = StatusOK ∧
      (currentHandler none none
        (setHandler SetFaults.none (some "5") (World.empty.hset "5" "8")).1).2.body
          = Body.snapshot m ∧
      m "5" = some nothingYet ∧
      (∀ r : Int, m "5" ≠ some (formatInt r)) ∧
      (∀ k, k ≠ "5" → m k = (World.empty.hset "5" "8").hash k) :=
  snapshot_after_submit SetFaults.none "5" (World.empty.hset "5" "8") (by decide)

theorem setHandler_rows (f : SetFaults) (decoded : Option String) (w : World) :
    (setHandler f decoded w).1.rows = w.rows ∨
      ∃ val n, decoded = some val ∧ Atoi val = some n ∧
        (setHandler f decoded w).2.status ≠ StatusBadRequest ∧
        (setHandler f decoded w).1.rows = w.rows ++ [n] := by
  cases decoded with
  | none => left; rfl
  | some val =>
    cases hp : Atoi val with
    | none => left; rw [setHandler_parse_error f val w hp]
    | some n =>
      by_cases hi : n > 40
      · left; rw [setHandler_too_high f val w n hp hi]
      · rw [setHandler_valid f val w n hp (not_lt.mp hi)]
        obtain ⟨fh, fp, fe, fw⟩ := f
        cases fh <;> cases fp <;> cases fe <;> cases fw <;>
          simp [httpError, StatusBadRequest, StatusInternalServerError, StatusOK, World.hset,
            World.publish, World.insert, hp]

theorem scanRows_ok (rows : List Int) (i : Nat) (values : List value) :
    scanRows (fun _ => none) rows i values = Except.ok (values ++ rows.map value.mk) := by
  induction rows generalizing i values with
  | nil => simp [scanRows]
  | cons r rs ih => simp [scanRows, ih]

theorem submitAll_rows (reqs : List (SetFaults × Option String)) (w : World)
    (hall : ∀ r ∈ (submitAll reqs w).2, r.status = StatusOK) :
    (submittedIndices reqs).length = reqs.length ∧
      (submitAll reqs w).1.rows = w.rows ++ submittedIndices reqs := by
  induction reqs generalizing w with
  | nil => simp [submitAll, submittedIndices]
  | cons req reqs ih =>
    obtain ⟨f, decoded⟩ := req
    simp only [submitAll, List.mem_cons, forall_eq_or_imp] at hall
    obtain ⟨h1, h2⟩ := hall
    obtain ⟨val, n, hv, hp, -, -, -, -, -, hw⟩ := setHandler_ok_inv f decoded w h1
    obtain ⟨ihl, ihr⟩ := ih (setHandler f decoded w).1 h2
    have e : submittedIndices ((f, decoded) :: reqs) = n :: submittedIndices reqs := by
      simp [submittedIndices, hv, hp]
    rw [e]
    refine ⟨by simp [ihl], ?_⟩
    simp only [submitAll]
    rw [ihr, hw]
    simp [World.insert, World.publish, World.hset]

/-- C8. The table only grows by appending. A submission answered 200 appends exactly one row,
the parsed index, after the existing rows; any submission either leaves the rows as they are
or appends that one row, and a submission answered 400 leaves them as they are; `allHandler`,
`currentHandler` and the worker leave them as they are. Hence after any sequence of
submissions that were all answered 200, the table is the old rows followed by one row per
submission (duplicates kept), and `allHandler` returns one record per row. -/
theorem durable_log_append_only (reqs : List (SetFaults × Option String)) (w : World)
    (hall : ∀ r ∈ (submitAll reqs w).2, r.status = StatusOK) :
    (∀ (f : SetFaults) (decoded : Option String) (v : World),
      (setHandler f decoded v).2.status = StatusOK →
        ∃ val n, decoded = some val ∧ Atoi val = some n ∧
          (setHandler f decoded v).1.rows = v.rows ++ [n]) ∧
    (∀ (f : SetFaults) (decoded : Option String) (v : World),
      (setHandler f decoded v).1.rows = v.rows ∨
        ∃ val n, decoded = some val ∧ Atoi val = some n ∧
          (setHandler f decoded v).2.status ≠ StatusBadRequest ∧
          (setHandler f decoded v).1.rows = v.rows ++ [n]) ∧
    (∀ (f : SetFaults) (decoded : Option String) (v : World),
      (setHandler f decoded v).2.status = StatusBadRequest →
        (setHandler f decoded v).1.rows = v.rows) ∧
    (∀ (q : Option String) (s : Nat → Option String) (e : Option String) (v : World),
      (allHandler q s e v).1 = v) ∧
    (∀ (h e : Option String) (v : World), (currentHandler h e v).1 = v) ∧
    (∀ (b : Bool) (payload : String) (v : World), (workerStep b payload v).rows = v.rows) ∧
    (submittedIndices reqs).length = reqs.length ∧
    (submitAll reqs w).1.rows = w.rows ++ submittedIndices reqs ∧
    (allHandler none (fun _ => none) none (submitAll reqs w).1).2.status = StatusOK ∧
    (allHandler none (fun _ => none) none (submitAll reqs w).1).2.body =
      Body.values ((w.rows ++ submittedIndices reqs).map value.mk) := by
  obtain ⟨hl, hr⟩ := submitAll_rows reqs w hall
  refine ⟨?_, setHandler_rows, ?_, ?_, ?_, workerStep_rows, hl, hr, ?_, ?_⟩
  · intro f decoded v h
    obtain ⟨val, n, hv, hp, -, -, -, -, -, hw⟩ := setHandler_ok_inv f decoded v h
    exact ⟨val, n, hv, hp, by rw [hw]; rfl⟩
  · intro f decoded v h
    rcases setHandler_rows f decoded v with e | ⟨_, _, _, _, hne, _⟩
    · exact e
    · exact absurd h hne
  · intro q s e v
    unfold allHandler
    cases q with
    | some err => rfl
    | none =>
      cases scanRows s v.rows 0 [] with
      | error err => rfl
      | ok values => cases e <;> rfl
  · intro h e v
    cases h <;> cases e <;> rfl
  · simp [allHandler, scanRows_ok]
  · simp [allHandler, scanRows_ok, hr]

theorem durable_log_append_only_witness :
    (submitAll [(SetFaults.none, some "0"), (SetFaults.none, some "1"),
        (SetFaults.none, some "2")] World.empty).1.rows = [0, 1, 2] ∧
    (allHandler none (fun _ => none) none
      (submitAll [(SetFaults.none, some "0"), (SetFaults.none, some "1"),
        (SetFaults.none, some "2")] World.empty).1).2.body =
      Body.values [⟨0⟩, ⟨1⟩, ⟨2⟩] :=
  have h := durable_log_append_only
    [(SetFaults.none, some "0"), (SetFaults.none, some "1"), (SetFaults.none, some "2")]
    World.empty (by decide)
  ⟨h.2.2.2.2.2.2.2.1, h.2.2.2.2.2.2.2.2.2⟩

end MultiK8s
